import Mathlib

/-!
Shallow embedding of `src/include/raii_in_c.h` (solarwindz/raii_in_c).

The header implements a fixed-capacity cleanup ("destructor") stack with
computed gotos.  We model the observable state of a frame as a `DStack`:

* `destructor_label_addresses[n]`  ~ `slots : List (Option α)` of length
  `capacity = n`; a slot is `some a` once a destructor (modelled as an opaque
  action value of type `α`) has been pushed into it, and `none` while it
  still holds garbage (uninitialized memory).
* `next_label_address`             ~ `cursor : Nat`, the index of the next
  free slot (`next_label_address = destructor_label_addresses + cursor`).
* `destructor_label_address_stack_end` (a marker saved by `BEGIN_SCOPE`) is
  the pointer `destructor_label_addresses + K - 1`; we represent the marker
  by the cursor value `K` it restores, so `END_SCOPE` takes `K : Nat` and
  `END_SCOPE_AND_RETURN` (which first sets the marker to
  `destructor_label_addresses - 1`) is `END_SCOPE` at `K = 0`.

A failed `assert` (NDEBUG not set) aborts the process; we model every
operation that can abort as returning `Option`, with `none` for an abort.
Jumping through an uninitialized slot (garbage label address) is undefined
behaviour in C; the model also returns `none` there.  Unwinds additionally
return the list of actions they executed, in execution order.
-/

namespace RaiiInC

/-- The per-frame state declared by `MAKE_DESTRUCTOR_STACK(n)`: a backing
array of `capacity` slots and the cursor of the next free slot. -/
structure DStack (α : Type) where
  capacity : Nat
  slots : List (Option α)
  cursor : Nat
deriving Repr, DecidableEq

variable {α : Type}

/-- `MAKE_DESTRUCTOR_STACK(n)`: declares `void *destructor_label_addresses[n]`
(uninitialized, hence all slots `none`) and sets
`next_label_address = destructor_label_addresses`, i.e. cursor 0. -/
def MAKE_DESTRUCTOR_STACK (n : Nat) : DStack α :=
  { capacity := n, slots := List.replicate n none, cursor := 0 }

/-- `PUSH_DESTRUCTOR__(lineno, ...)`:
`assert(destructor_label_addresses <= next_label_address)` (cursor ≥ 0,
trivially true over `Nat`), then
`assert(destructor_label_addresses + n > next_label_address)` (cursor < n),
then `*next_label_address++ = &&destructor_lineno` — store the action at the
cursor and increment.  The destructor body itself is jumped over
(`goto after_destructor_lineno`) and not executed here. -/
def PUSH_DESTRUCTOR (s : DStack α) (a : α) : Option (DStack α) :=
  if 0 ≤ s.cursor then
    if s.cursor < s.capacity then
      some { s with slots := s.slots.set s.cursor (some a), cursor := s.cursor + 1 }
    else none
  else none

/-- `BEGIN_SCOPE`: saves
`destructor_label_address_stack_end = next_label_address - 1`, i.e. the
marker that makes a later `END_SCOPE` restore the current cursor value. -/
def BEGIN_SCOPE (s : DStack α) : Nat :=
  s.cursor

/-- The loop of `END_SCOPE__(lineno)`, parametrized by the marker as the
cursor value `K` it restores (`destructor_label_address_stack_end =
destructor_label_addresses + K - 1`) and the current cursor.  Each round:
`assert(destructor_label_address_stack_end < next_label_address)`
(that is `K - 1 < cursor` over ℤ, i.e. `K ≤ cursor`); if
`next_label_address - 1 != destructor_label_address_stack_end`
(i.e. `cursor ≠ K`) decrement the cursor,
`assert(destructor_label_addresses <= destructor_label_address)` (the
decremented cursor is ≥ 0, trivial over `Nat`), and jump through the stored
label — run the destructor at the decremented cursor, whose trailing
`goto *return_label_address` re-enters the loop.  Jumping through a slot
that was never written is undefined behaviour, modelled as `none`.
Returns the executed actions in execution order. -/
def unwindLoop (slots : List (Option α)) (K : Nat) : Nat → Option (List α)
  | 0 => if K ≤ 0 then some [] else none
  | c + 1 =>
    if K ≤ c + 1 then
      if c + 1 = K then some []
      else
        match slots[c]? with
        | some (some a) => (unwindLoop slots K c).map (fun tr => a :: tr)
        | _ => none
    else none

/-- `END_SCOPE` (i.e. `END_SCOPE__(lineno)`) run with marker `K`: executes
the destructors from `cursor - 1` down to `K`, leaving the cursor at `K`.
The slot contents themselves are never cleared. -/
def END_SCOPE (s : DStack α) (K : Nat) : Option (DStack α × List α) :=
  (unwindLoop s.slots K s.cursor).map (fun tr => ({ s with cursor := K }, tr))

/-- `END_SCOPE_AND_RETURN(ret)`: sets
`destructor_label_address_stack_end = destructor_label_addresses - 1`
(marker `K = 0`) and then performs `END_SCOPE`, unwinding the whole stack. -/
def END_SCOPE_AND_RETURN (s : DStack α) : Option (DStack α × List α) :=
  END_SCOPE s 0

/-- Push a whole list of actions in order (a sequence of
`PUSH_DESTRUCTOR` registrations). -/
def pushAll (s : DStack α) : List α → Option (DStack α)
  | [] => some s
  | a :: as => (PUSH_DESTRUCTOR s a).bind (fun s2 => pushAll s2 as)

/-- The actions stored in slots `K ≤ i < c` (in slot order), extracted from
the backing store. -/
def segActions (slots : List (Option α)) (K c : Nat) : List α :=
  ((slots.take c).drop K).filterMap id

/-- The state of a frame whose slots were filled by pushing `as` in order
into a fresh stack of capacity `n`, with the cursor currently at `cur`. -/
def filledStack (n : Nat) (as : List α) (cur : Nat) : DStack α :=
  { capacity := n
    slots := as.map some ++ List.replicate (n - as.length) none
    cursor := cur }

/-- One client operation on a frame: register a destructor, or run an
`END_SCOPE` unwind down to the marker that restores cursor `K`
(`END_SCOPE_AND_RETURN` is `unwind 0`; `BEGIN_SCOPE` merely reads the
cursor, so every marker a client can hold is some such `K`). -/
inductive Op where
  | push : Op
  | unwind : Nat → Op
deriving Repr, DecidableEq

/-- A frame together with the instrumentation used to observe it: each push
registers a fresh tag (`nextTag`, so distinct registrations are
distinguishable), and `trace` records every destructor execution in order. -/
structure RState where
  stack : DStack Nat
  nextTag : Nat
  trace : List Nat
deriving Repr, DecidableEq

/-- Execute one operation on an instrumented frame. -/
def step (st : RState) : Op → Option RState
  | Op.push => (PUSH_DESTRUCTOR st.stack st.nextTag).map
      (fun s2 => { stack := s2, nextTag := st.nextTag + 1, trace := st.trace })
  | Op.unwind K => (END_SCOPE st.stack K).map
      (fun p => { stack := p.1, nextTag := st.nextTag, trace := st.trace ++ p.2 })

/-- Execute a sequence of operations, aborting the whole run if any
operation aborts. -/
def run (st : RState) : List Op → Option RState
  | [] => some st
  | op :: ops => (step st op).bind (fun st2 => run st2 ops)

/-- A fresh instrumented frame of capacity `n`. -/
def initState (n : Nat) : RState :=
  { stack := MAKE_DESTRUCTOR_STACK n, nextTag := 0, trace := [] }

/-- The tags of the destructors still pending: the contents of the slots
below the cursor, bottom first. -/
def pendingTags (st : RState) : List Nat :=
  segActions st.stack.slots 0 st.stack.cursor

/-- Invariant of every reachable instrumented frame: the backing store keeps
its declared length, the cursor stays in bounds, every slot below the cursor
has been written, no tag occurs twice among pending-plus-executed tags, and
all tags seen so far were issued by earlier pushes. -/
def Inv (st : RState) : Prop :=
  st.stack.slots.length = st.stack.capacity ∧
  st.stack.cursor ≤ st.stack.capacity ∧
  (∀ i, i < st.stack.cursor → ∃ t, st.stack.slots[i]? = some (some t)) ∧
  (pendingTags st ++ st.trace).Nodup ∧
  (∀ t ∈ pendingTags st ++ st.trace, t < st.nextTag)

/-! ### Basic lemmas about the embedding -/

theorem PUSH_DESTRUCTOR_eq (s : DStack α) (a : α) :
    PUSH_DESTRUCTOR s a =
      if s.cursor < s.capacity then
        some { s with slots := s.slots.set s.cursor (some a), cursor := s.cursor + 1 }
      else none := by
  simp [PUSH_DESTRUCTOR]

theorem unwindLoop_self (slots : List (Option α)) (K : Nat) :
    unwindLoop slots K K = some [] := by
  cases K with
  | zero => simp [unwindLoop]
  | succ c => simp [unwindLoop]

theorem unwindLoop_le {slots : List (Option α)} {K c : Nat} {tr : List α}
    (h : unwindLoop slots K c = some tr) : K ≤ c := by
  cases c with
  | zero =>
    by_cases hK : K ≤ 0
    · exact hK
    · simp [unwindLoop, hK] at h
  | succ c =>
    by_cases hK : K ≤ c + 1
    · exact hK
    · simp [unwindLoop, hK] at h

/-- A successful sequence of pushes writes the actions into consecutive slots
starting at the cursor and advances the cursor past them; slots outside the
written range are untouched. -/
theorem pushAll_eq (as : List α) (s : DStack α)
    (hlen : s.slots.length = s.capacity)
    (hcap : s.cursor + as.length ≤ s.capacity) :
    pushAll s as = some
      { capacity := s.capacity
        slots := s.slots.take s.cursor ++ as.map some ++ s.slots.drop (s.cursor + as.length)
        cursor := s.cursor + as.length } := by
  induction as generalizing s with
  | nil =>
    cases s with
    | mk cap slots cur => simp [pushAll, List.take_append_drop]
  | cons a as ih =>
    have hc : s.cursor < s.capacity := by
      simp only [List.length_cons] at hcap; omega
    have hclen : s.cursor < s.slots.length := by omega
    have hstep : PUSH_DESTRUCTOR s a =
        some { s with slots := s.slots.set s.cursor (some a), cursor := s.cursor + 1 } := by
      simp [PUSH_DESTRUCTOR, hc]
    have hset : s.slots.set s.cursor (some a) =
        s.slots.take s.cursor ++ some a :: s.slots.drop (s.cursor + 1) :=
      List.set_eq_take_cons_drop _ hclen
    have hlen2 : (s.slots.set s.cursor (some a)).length = s.capacity := by
      simp [hlen]
    have hcap2 : (s.cursor + 1) + as.length ≤ s.capacity := by
      simp only [List.length_cons] at hcap; omega
    rw [pushAll, hstep, Option.some_bind,
      ih { s with slots := s.slots.set s.cursor (some a), cursor := s.cursor + 1 }
        hlen2 hcap2]
    have htakelen : (s.slots.take s.cursor).length = s.cursor := by
      simp [Nat.min_eq_left (Nat.le_of_lt hclen)]
    have htake : (s.slots.set s.cursor (some a)).take (s.cursor + 1) =
        s.slots.take s.cursor ++ [some a] := by
      rw [hset, List.take_append_eq_append_take, htakelen, List.take_take]
      simp [Nat.min_eq_right (Nat.le_succ s.cursor)]
    have hdrop : (s.slots.set s.cursor (some a)).drop (s.cursor + 1 + as.length) =
        s.slots.drop (s.cursor + (a :: as).length) := by
      rw [hset, List.drop_append_eq_append_drop, htakelen]
      have h1 : (s.slots.take s.cursor).drop (s.cursor + 1 + as.length) = [] := by
        apply List.drop_eq_nil_of_le
        rw [htakelen]; omega
      have h2 : s.cursor + 1 + as.length - s.cursor = as.length + 1 := by omega
      rw [h1, h2]
      simp only [List.drop_succ_cons, List.drop_drop, List.nil_append, List.length_cons]
      congr 1
      omega
    simp only [htake, hdrop]
    congr 1
    simp only [DStack.mk.injEq, true_and]
    constructor
    · simp only [List.map_cons, List.append_assoc, List.cons_append, List.nil_append]
    · simp only [List.length_cons]; omega

/-- Unwinding a region of filled slots: over a backing store of the form
`pre ++ mid.map some ++ post`, unwinding from cursor `|pre| + |mid|` down to
marker `|pre|` executes exactly `mid` in reverse order. -/
theorem unwindLoop_seg (pre : List (Option α)) (mid : List α) (post : List (Option α)) :
    unwindLoop (pre ++ mid.map some ++ post) pre.length (pre.length + mid.length) =
      some mid.reverse := by
  induction mid using List.reverseRecOn generalizing post with
  | nil => simpa using unwindLoop_self (pre ++ post) pre.length
  | append_singleton ms m ih =>
    have hlen : pre.length + (ms ++ [m]).length = (pre.length + ms.length) + 1 := by
      simp [List.length_append]
      omega
    rw [hlen]
    have hget : (pre ++ (ms ++ [m]).map some ++ post)[pre.length + ms.length]? =
        some (some m) := by
      have : pre ++ (ms ++ [m]).map some ++ post =
          (pre ++ ms.map some) ++ (some m :: post) := by
        simp [List.append_assoc]
      rw [this]
      rw [List.getElem?_append_right (by simp [List.length_append])]
      simp [List.length_append]
    have hrec : pre ++ (ms ++ [m]).map some ++ post =
        pre ++ ms.map some ++ (some m :: post) := by
      simp [List.append_assoc]
    have hne : pre.length + ms.length + 1 ≠ pre.length := by omega
    have hle : pre.length ≤ pre.length + ms.length + 1 := by omega
    simp only [unwindLoop, hle, if_pos, hne, if_neg, hget]
    rw [hrec, ih]
    simp

/-- A cursor value strictly below the marker makes the entry assertion
`destructor_label_address_stack_end < next_label_address` of `END_SCOPE__`
fail: the unwind aborts. -/
theorem unwindLoop_none_of_lt (slots : List (Option α)) {K c : Nat} (h : c < K) :
    unwindLoop slots K c = none := by
  cases hres : unwindLoop slots K c with
  | none => rfl
  | some tr => exact absurd (unwindLoop_le hres) (by omega)

/-- Whenever every slot between the marker and the cursor has been written,
the unwind loop succeeds and executes exactly those stored actions, top of
stack first. -/
theorem unwindLoop_filled (slots : List (Option α)) (K : Nat) (c : Nat) (hK : K ≤ c)
    (hfill : ∀ i, K ≤ i → i < c → ∃ a, slots[i]? = some (some a)) :
    unwindLoop slots K c = some (segActions slots K c).reverse := by
  induction c with
  | zero =>
    have hK0 : K = 0 := Nat.le_zero.mp hK
    subst hK0
    simp [unwindLoop, segActions]
  | succ c ih =>
    by_cases hc : c + 1 = K
    · subst hc
      rw [unwindLoop_self]
      have : segActions slots (c + 1) (c + 1) = [] := by
        unfold segActions
        rw [List.drop_eq_nil_of_le]
        · rfl
        · simp [List.length_take]
      rw [this]
      rfl
    · have hKc : K ≤ c := by omega
      obtain ⟨a, ha⟩ := hfill c hKc (Nat.lt_succ_self c)
      have hclen : c < slots.length := by
        by_contra hcon
        rw [List.getElem?_eq_none (by omega)] at ha
        cases ha
      have hrec := ih hKc (fun i h1 h2 => hfill i h1 (Nat.lt_succ_of_lt h2))
      have hseg : segActions slots K (c + 1) = segActions slots K c ++ [a] := by
        unfold segActions
        rw [List.take_succ, ha]
        rw [List.drop_append_eq_append_drop]
        have hlen : (slots.take c).length = c := by
          simp [Nat.min_eq_left (Nat.le_of_lt hclen)]
        rw [List.filterMap_append, hlen, Nat.sub_eq_zero_of_le hKc]
        rfl
      simp only [unwindLoop, hK, if_pos, hc, if_neg, ha]
      rw [hrec, hseg]
      simp

theorem filledStack_nil (n : Nat) :
    (filledStack n [] 0 : DStack α) = MAKE_DESTRUCTOR_STACK n := by
  simp [filledStack, MAKE_DESTRUCTOR_STACK]

/-- Unwinding a filled stack from cursor `c` down to marker `K` executes the
stored actions `K ≤ i < c` in reverse order. -/
theorem unwindLoop_filled_seg (cs : List α) (post : List (Option α)) (K c : Nat)
    (hK : K ≤ c) (hc : c ≤ cs.length) :
    unwindLoop (cs.map some ++ post) K c = some ((cs.drop K).take (c - K)).reverse := by
  have hdecomp : cs = cs.take K ++ ((cs.drop K).take (c - K)) ++ (cs.drop c) := by
    rw [List.append_assoc]
    have h1 : (cs.drop K).take (c - K) ++ cs.drop c = cs.drop K := by
      have h2 : cs.drop c = (cs.drop K).drop (c - K) := by
        rw [List.drop_drop]
        congr 1
        omega
      rw [h2, List.take_append_drop]
    rw [h1, List.take_append_drop]
  have hslots : cs.map some ++ post =
      (cs.take K).map some ++ ((cs.drop K).take (c - K)).map some ++ ((cs.drop c).map some ++ post) := by
    conv_lhs => rw [hdecomp]
    simp [List.map_append, List.append_assoc]
  have hlen1 : ((cs.take K).map some).length = K := by
    simp [Nat.min_eq_left (Nat.le_trans hK hc)]
  have hlen2 : ((cs.drop K).take (c - K)).length = c - K := by
    simp [List.length_take, List.length_drop]
    omega
  have hmain := unwindLoop_seg ((cs.take K).map some) ((cs.drop K).take (c - K))
    ((cs.drop c).map some ++ post)
  rw [hlen1, hlen2] at hmain
  rw [hslots]
  have hKc : K + (c - K) = c := by omega
  rw [hKc] at hmain
  exact hmain

/-- Pushing `bs` into a stack filled with `as` (cursor at the top of `as`)
appends `bs` into the next slots and advances the cursor. -/
theorem pushAll_filled (n : Nat) (as bs : List α) (h : as.length + bs.length ≤ n) :
    pushAll (filledStack n as as.length) bs =
      some (filledStack n (as ++ bs) (as.length + bs.length)) := by
  have hlen : (filledStack n as as.length : DStack α).slots.length =
      (filledStack n as as.length : DStack α).capacity := by
    simp [filledStack]
    omega
  have hcap : (filledStack n as as.length : DStack α).cursor + bs.length ≤
      (filledStack n as as.length : DStack α).capacity := by
    simp [filledStack]
    omega
  rw [pushAll_eq bs (filledStack n as as.length) hlen hcap]
  congr 1
  simp only [filledStack, DStack.mk.injEq, true_and]
  have hmaplen : (as.map (some : α → Option α)).length = as.length := List.length_map as some
  constructor
  · have htake : ((as.map some ++ List.replicate (n - as.length) none).take as.length :
        List (Option α)) = as.map some := by
      rw [List.take_append_eq_append_take, hmaplen, Nat.sub_self, List.take_zero,
        List.append_nil, ← hmaplen, List.take_length]
    have hdrop : ((as.map some ++ List.replicate (n - as.length) none).drop
        (as.length + bs.length) : List (Option α)) =
        List.replicate (n - (as ++ bs).length) none := by
      rw [List.drop_append_eq_append_drop, hmaplen, List.drop_eq_nil_of_le (by omega),
        List.nil_append, List.drop_replicate]
      congr 1
      simp [List.length_append]
      omega
    rw [htake, hdrop, List.map_append, List.append_assoc]
  · simp [List.length_append]

/-- `END_SCOPE` on a filled stack: unwinding from cursor `c` to marker `K`
executes the stored actions `K ≤ i < c` in reverse registration order and
restores the cursor to `K`, leaving the slots untouched. -/
theorem END_SCOPE_filled (n : Nat) (cs : List α) (K c : Nat) (hK : K ≤ c)
    (hc : c ≤ cs.length) :
    END_SCOPE (filledStack n cs c) K =
      some (filledStack n cs K, ((cs.drop K).take (c - K)).reverse) := by
  show (unwindLoop (cs.map some ++ List.replicate (n - cs.length) none) K c).map _ = _
  rw [unwindLoop_filled_seg cs _ K c hK hc]
  rfl

/-- Pushing `as` into a fresh stack of capacity `n ≥ as.length` succeeds and
fills the first `as.length` slots. -/
theorem pushAll_make (n : Nat) (as : List α) (h : as.length ≤ n) :
    pushAll (MAKE_DESTRUCTOR_STACK n) as = some (filledStack n as as.length) := by
  have h1 := pushAll_filled n [] as (by simpa using h)
  simp only [List.length_nil, List.nil_append, Nat.zero_add] at h1
  rw [filledStack_nil] at h1
  exact h1

/-! ### The claims -/

/-- C1: for every capacity `n` and every sequence of `N = as.length ≤ n`
pushes followed by a full unwind (`END_SCOPE_AND_RETURN`, i.e. `unwindAll`),
the pushes all succeed and the unwind executes exactly `as.reverse` — the
registered actions in reverse order of push, each exactly once — leaving the
cursor at 0. -/
theorem c1_pushes_then_unwindAll (n : Nat) (as : List α) (h : as.length ≤ n) :
    pushAll (MAKE_DESTRUCTOR_STACK n) as = some (filledStack n as as.length) ∧
    END_SCOPE_AND_RETURN (filledStack n as as.length) =
      some (filledStack n as 0, as.reverse) := by
  constructor
  · exact pushAll_make n as h
  · rw [END_SCOPE_AND_RETURN, END_SCOPE_filled n as 0 as.length (Nat.zero_le _) le_rfl]
    simp

/-- Witness for C1 at capacity 3 with two pushes. -/
theorem c1_witness :
    pushAll (MAKE_DESTRUCTOR_STACK 3) [10, 20] = some (filledStack 3 [10, 20] 2) ∧
    END_SCOPE_AND_RETURN (filledStack 3 [10, 20] 2) =
      some (filledStack 3 [10, 20] 0, [20, 10]) :=
  c1_pushes_then_unwindAll 3 [10, 20] (by decide)

/-- C2: with a scope marker taken after the first `K = as.length` pushes
(`BEGIN_SCOPE`), followed by `J = bs.length` more pushes and then
`END_SCOPE` at that marker, exactly the last `J` actions run, in reverse
registration order (`bs.reverse`), the cursor returns to `K`, and the first
`K` entries are still pending and unchanged (`as` in slots `0..K-1`). -/
theorem c2_scoped_unwind (n : Nat) (as bs : List α) (h : as.length + bs.length ≤ n) :
    pushAll (MAKE_DESTRUCTOR_STACK n) as = some (filledStack n as as.length) ∧
    BEGIN_SCOPE (filledStack n as as.length : DStack α) = as.length ∧
    pushAll (filledStack n as as.length) bs =
      some (filledStack n (as ++ bs) (as.length + bs.length)) ∧
    END_SCOPE (filledStack n (as ++ bs) (as.length + bs.length)) as.length =
      some (filledStack n (as ++ bs) as.length, bs.reverse) ∧
    (filledStack n (as ++ bs) as.length : DStack α).cursor = as.length ∧
    (filledStack n (as ++ bs) as.length : DStack α).slots.take as.length = as.map some := by
  refine ⟨?_, rfl, pushAll_filled n as bs h, ?_, rfl, ?_⟩
  · exact pushAll_make n as (by omega)
  · have h1 := END_SCOPE_filled n (as ++ bs) as.length (as.length + bs.length)
      (Nat.le_add_right _ _) (by simp [List.length_append])
    rw [h1]
    congr 2
    rw [List.drop_left, Nat.add_sub_cancel_left, List.take_length]
  · show ((as ++ bs).map some ++ _).take as.length = as.map some
    rw [List.map_append, List.append_assoc, List.take_append_eq_append_take,
      List.length_map, Nat.sub_self, List.take_zero, List.append_nil, ← List.length_map as some,
      List.take_length]

/-- Witness for C2 at capacity 4 with `as = [1, 2]`, `bs = [7]`. -/
theorem c2_witness :
    pushAll (MAKE_DESTRUCTOR_STACK 4) [1, 2] = some (filledStack 4 [1, 2] 2) ∧
    BEGIN_SCOPE (filledStack 4 [1, 2] 2 : DStack Nat) = 2 ∧
    pushAll (filledStack 4 [1, 2] 2) [7] = some (filledStack 4 [1, 2, 7] 3) ∧
    END_SCOPE (filledStack 4 [1, 2, 7] 3) 2 = some (filledStack 4 [1, 2, 7] 2, [7]) ∧
    (filledStack 4 [1, 2, 7] 2 : DStack Nat).cursor = 2 ∧
    (filledStack 4 [1, 2, 7] 2 : DStack Nat).slots.take 2 = [some 1, some 2] :=
  c2_scoped_unwind 4 [1, 2] [7] (by decide)

/-- C3: after `END_SCOPE` has restored the cursor to `K = as.length`, a
subsequent full unwind (`END_SCOPE_AND_RETURN`) runs exactly the remaining
`K` actions in reverse order (`as.reverse`) and leaves the cursor at 0,
tearing down the whole stack regardless of the marker at `K`. -/
theorem c3_unwindAll_after_scoped (n : Nat) (as bs : List α)
    (_h : as.length + bs.length ≤ n) :
    END_SCOPE (filledStack n (as ++ bs) (as.length + bs.length)) as.length =
      some (filledStack n (as ++ bs) as.length, bs.reverse) ∧
    END_SCOPE_AND_RETURN (filledStack n (as ++ bs) as.length) =
      some (filledStack n (as ++ bs) 0, as.reverse) := by
  constructor
  · have h1 := END_SCOPE_filled n (as ++ bs) as.length (as.length + bs.length)
      (Nat.le_add_right _ _) (by simp [List.length_append])
    rw [h1]
    congr 2
    rw [List.drop_left, Nat.add_sub_cancel_left, List.take_length]
  · rw [END_SCOPE_AND_RETURN]
    have h1 := END_SCOPE_filled n (as ++ bs) 0 as.length (Nat.zero_le _)
      (by simp [List.length_append])
    rw [h1]
    congr 2
    rw [List.drop_zero, Nat.sub_zero, List.take_left]

/-- Witness for C3 at capacity 4 with `as = [1, 2]`, `bs = [7]`. -/
theorem c3_witness :
    END_SCOPE (filledStack 4 [1, 2, 7] 3) 2 = some (filledStack 4 [1, 2, 7] 2, [7]) ∧
    END_SCOPE_AND_RETURN (filledStack 4 [1, 2, 7] 2) =
      some (filledStack 4 [1, 2, 7] 0, [2, 1]) :=
  c3_unwindAll_after_scoped 4 [1, 2] [7] (by decide)

/-- C4: when the cursor equals the capacity, `PUSH_DESTRUCTOR`'s assertion
`destructor_label_addresses + n > next_label_address` fails and the push
aborts, returning no state at all (nothing is truncated or overwritten);
when the cursor is below the capacity, neither assertion fires and the
action is stored at the cursor with the cursor incremented. -/
theorem c4_push_capacity_check (s : DStack α) (a : α) :
    (s.cursor = s.capacity → PUSH_DESTRUCTOR s a = none) ∧
    (s.cursor < s.capacity →
      PUSH_DESTRUCTOR s a =
        some { s with slots := s.slots.set s.cursor (some a), cursor := s.cursor + 1 }) := by
  constructor
  · intro h
    simp [PUSH_DESTRUCTOR, h]
  · intro h
    simp [PUSH_DESTRUCTOR, h]

/-- Witness for C4: a full stack rejects a push; a non-full one appends. -/
theorem c4_witness :
    PUSH_DESTRUCTOR (⟨1, [some 5], 1⟩ : DStack Nat) 7 = none ∧
    PUSH_DESTRUCTOR (⟨2, [some 5, none], 1⟩ : DStack Nat) 7 =
      some ⟨2, [some 5, some 7], 2⟩ :=
  ⟨(c4_push_capacity_check ⟨1, [some 5], 1⟩ 7).1 rfl,
   (c4_push_capacity_check ⟨2, [some 5, none], 1⟩ 7).2 (by decide)⟩

/-- C5 counterexample: a double-unwind of the same marker is NOT fatal.
With capacity 1, `BEGIN_SCOPE` taken at cursor 0 (marker `K = 0`), one push,
and a first `END_SCOPE` that runs the action and restores cursor 0, a second
`END_SCOPE` with the very same marker passes the assertion
(`destructor_label_address_stack_end < next_label_address` is `-1 < 0`) and
silently proceeds as a no-op, contradicting the claim that it aborts. -/
theorem c5_counterexample :
    PUSH_DESTRUCTOR (MAKE_DESTRUCTOR_STACK 1 : DStack Nat) 5 = some ⟨1, [some 5], 1⟩ ∧
    END_SCOPE (⟨1, [some 5], 1⟩ : DStack Nat) 0 = some (⟨1, [some 5], 0⟩, [5]) ∧
    END_SCOPE (⟨1, [some 5], 0⟩ : DStack Nat) 0 = some (⟨1, [some 5], 0⟩, []) := by
  decide

/-- C5 (amended): `END_SCOPE` aborts via its assertion exactly when the
cursor is strictly below the marker's restore point `K` — e.g. unwinding
past a marker already consumed by a wider unwind.  When `K ≤ cursor` (which
includes a re-unwind of the same marker at `cursor = K`), the unwind
silently proceeds, running the pending actions above `K` (none, for a
re-unwind). -/
theorem c5_unwind_marker_assertion (s : DStack α) (K : Nat) :
    (s.cursor < K → END_SCOPE s K = none) ∧
    (K ≤ s.cursor → (∀ i, K ≤ i → i < s.cursor → ∃ a, s.slots[i]? = some (some a)) →
      END_SCOPE s K =
        some ({ s with cursor := K }, (segActions s.slots K s.cursor).reverse)) := by
  constructor
  · intro h
    simp [END_SCOPE, unwindLoop_none_of_lt s.slots h]
  · intro hK hfill
    simp [END_SCOPE, unwindLoop_filled s.slots K s.cursor hK hfill]

/-- Witness for the amended C5: unwinding past a consumed marker aborts;
unwinding a pending scope succeeds. -/
theorem c5_witness :
    END_SCOPE (⟨1, [some 5], 0⟩ : DStack Nat) 1 = none ∧
    END_SCOPE (⟨1, [some 5], 1⟩ : DStack Nat) 0 = some (⟨1, [some 5], 0⟩, [5]) :=
  ⟨(c5_unwind_marker_assertion ⟨1, [some 5], 0⟩ 1).1 (by decide),
   (c5_unwind_marker_assertion ⟨1, [some 5], 1⟩ 0).2 (by decide)
     (by
       intro i h1 h2
       have h3 : i < 1 := h2
       have h4 : i = 0 := by omega
       subst h4
       exact ⟨5, rfl⟩)⟩

/-- C7: a full unwind (`END_SCOPE_AND_RETURN`) of an already-empty stack
(cursor 0) runs zero actions, does not abort, and leaves the state
unchanged. -/
theorem c7_unwindAll_empty_noop (s : DStack α) (h : s.cursor = 0) :
    END_SCOPE_AND_RETURN s = some (s, []) := by
  cases s with
  | mk cap slots cur =>
    simp only at h
    subst h
    simp [END_SCOPE_AND_RETURN, END_SCOPE, unwindLoop]

/-- Witness for C7 on a fresh stack of capacity 3. -/
theorem c7_witness :
    END_SCOPE_AND_RETURN (⟨3, [none, none, none], 0⟩ : DStack Nat) =
      some (⟨3, [none, none, none], 0⟩, []) :=
  c7_unwindAll_empty_noop _ rfl

/-- C8: `MAKE_DESTRUCTOR_STACK n` allocates a backing array of exactly `n`
slots with the cursor initialized to 0.  The capacity is a construction-time
`Nat`, so a negative or unknown bound is unrepresentable — the embedding's
analogue of the compile-time precondition on the array declaration. -/
theorem c8_make_stack (n : Nat) :
    (MAKE_DESTRUCTOR_STACK n : DStack α).capacity = n ∧
    (MAKE_DESTRUCTOR_STACK n : DStack α).slots.length = n ∧
    (MAKE_DESTRUCTOR_STACK n : DStack α).cursor = 0 := by
  simp [MAKE_DESTRUCTOR_STACK]

/-! ### Instrumented runs: step characterizations and the cursor bound -/

theorem step_push_eq (st : RState) :
    step st Op.push =
      if st.stack.cursor < st.stack.capacity then
        some { stack := { st.stack with
                  slots := st.stack.slots.set st.stack.cursor (some st.nextTag),
                  cursor := st.stack.cursor + 1 },
               nextTag := st.nextTag + 1, trace := st.trace }
      else none := by
  simp only [step, PUSH_DESTRUCTOR_eq]
  by_cases hc : st.stack.cursor < st.stack.capacity
  · simp [hc]
  · simp [hc]

theorem step_unwind_eq (st : RState) (K : Nat) :
    step st (Op.unwind K) =
      (unwindLoop st.stack.slots K st.stack.cursor).map
        (fun tr => { stack := { st.stack with cursor := K },
                     nextTag := st.nextTag, trace := st.trace ++ tr }) := by
  simp only [step, END_SCOPE]
  cases unwindLoop st.stack.slots K st.stack.cursor <;> simp

theorem unwindLoop_single (slots : List (Option α)) (c : Nat) (a : α)
    (h : slots[c]? = some (some a)) : unwindLoop slots c (c + 1) = some [a] := by
  have h1 : c ≤ c + 1 := Nat.le_succ c
  have h2 : ¬(c + 1 = c) := by omega
  simp only [unwindLoop, h1, if_pos, h2, if_neg, h]
  rw [unwindLoop_self]
  rfl

/-- Each successful operation keeps the cursor within the capacity. -/
theorem step_cursor_le {st st' : RState} {op : Op}
    (hinv : st.stack.cursor ≤ st.stack.capacity)
    (h : step st op = some st') :
    st'.stack.cursor ≤ st'.stack.capacity := by
  cases op with
  | push =>
    rw [step_push_eq] at h
    by_cases hc : st.stack.cursor < st.stack.capacity
    · rw [if_pos hc] at h
      cases h
      simpa using hc
    · rw [if_neg hc] at h
      cases h
  | unwind K =>
    rw [step_unwind_eq] at h
    cases hu : unwindLoop st.stack.slots K st.stack.cursor with
    | none => rw [hu] at h; cases h
    | some tr =>
      rw [hu] at h
      cases h
      have hK := unwindLoop_le hu
      simp only
      omega

/-- The cursor bound is preserved along a whole run. -/
theorem run_cursor_le (ops : List Op) : ∀ (st st' : RState),
    st.stack.cursor ≤ st.stack.capacity → run st ops = some st' →
    st'.stack.cursor ≤ st'.stack.capacity := by
  induction ops with
  | nil =>
    intro st st' hinv h
    simp [run] at h
    subst h
    exact hinv
  | cons op ops ih =>
    intro st st' hinv h
    rw [run] at h
    cases hs : step st op with
    | none => rw [hs] at h; cases h
    | some st2 =>
      rw [hs] at h
      simp only [Option.some_bind] at h
      exact ih st2 st' (step_cursor_le hinv hs) h

/-- C6: every operation preserves `0 ≤ cursor ≤ capacity`, and along every
non-aborting run of push/unwind operations (unwinds at arbitrary markers
subsume `BEGIN_SCOPE`/`END_SCOPE`/`END_SCOPE_AND_RETURN` uses) the cursor
stays within `[0, capacity]`. -/
theorem c6_cursor_in_bounds :
    (∀ (st : RState) (op : Op) (st' : RState),
      st.stack.cursor ≤ st.stack.capacity → step st op = some st' →
      0 ≤ st'.stack.cursor ∧ st'.stack.cursor ≤ st'.stack.capacity) ∧
    (∀ (n : Nat) (ops : List Op) (st' : RState),
      run (initState n) ops = some st' →
      0 ≤ st'.stack.cursor ∧ st'.stack.cursor ≤ st'.stack.capacity) := by
  constructor
  · intro st op st' hinv h
    exact ⟨Nat.zero_le _, step_cursor_le hinv h⟩
  · intro n ops st' h
    refine ⟨Nat.zero_le _, run_cursor_le ops (initState n) st' ?_ h⟩
    simp [initState, MAKE_DESTRUCTOR_STACK]

/-- Witness for C6: a run with two pushes, a partial unwind, another push
and a full unwind on a capacity-2 frame. -/
theorem c6_witness :
    0 ≤ (⟨⟨2, [some 0, some 2], 0⟩, 3, [1, 2, 0]⟩ : RState).stack.cursor ∧
    (⟨⟨2, [some 0, some 2], 0⟩, 3, [1, 2, 0]⟩ : RState).stack.cursor ≤
      (⟨⟨2, [some 0, some 2], 0⟩, 3, [1, 2, 0]⟩ : RState).stack.capacity :=
  c6_cursor_in_bounds.2 2 [Op.push, Op.push, Op.unwind 1, Op.push, Op.unwind 0]
    ⟨⟨2, [some 0, some 2], 0⟩, 3, [1, 2, 0]⟩ (by decide)

/-- C9: `PUSH_DESTRUCTOR` jumps over the destructor body: a successful push
leaves the execution trace unchanged, merely storing the action at the
cursor slot, and that action runs (once) only when a subsequent unwind pops
its entry. -/
theorem c9_push_registers_without_running (st : RState)
    (hlen : st.stack.slots.length = st.stack.capacity) (st' : RState)
    (h : step st Op.push = some st') :
    st'.trace = st.trace ∧
    st'.stack.slots[st.stack.cursor]? = some (some st.nextTag) ∧
    step st' (Op.unwind st.stack.cursor) =
      some { stack := { st'.stack with cursor := st.stack.cursor },
             nextTag := st'.nextTag,
             trace := st'.trace ++ [st.nextTag] } := by
  rw [step_push_eq] at h
  by_cases hc : st.stack.cursor < st.stack.capacity
  · rw [if_pos hc] at h
    cases h
    have hclen : st.stack.cursor < st.stack.slots.length := by omega
    have hget : (st.stack.slots.set st.stack.cursor (some st.nextTag))[st.stack.cursor]? =
        some (some st.nextTag) := List.getElem?_set_eq_of_lt _ hclen
    refine ⟨rfl, hget, ?_⟩
    rw [step_unwind_eq]
    simp only
    rw [unwindLoop_single _ _ _ hget]
    rfl
  · rw [if_neg hc] at h
    cases h

/-- Witness for C9: one push on a fresh capacity-1 frame registers tag 0
without running it; the following unwind runs exactly that action. -/
theorem c9_witness :
    (⟨⟨1, [some 0], 1⟩, 1, []⟩ : RState).trace = (initState 1).trace ∧
    (⟨⟨1, [some 0], 1⟩, 1, []⟩ : RState).stack.slots[(initState 1).stack.cursor]? =
      some (some (initState 1).nextTag) ∧
    step (⟨⟨1, [some 0], 1⟩, 1, []⟩ : RState) (Op.unwind (initState 1).stack.cursor) =
      some ⟨⟨1, [some 0], 0⟩, 1, [0]⟩ :=
  c9_push_registers_without_running (initState 1) rfl ⟨⟨1, [some 0], 1⟩, 1, []⟩ (by decide)

/-! ### The exactly-once invariant of instrumented runs -/

theorem take_set_succ (l : List α) (c : Nat) (x : α) (h : c < l.length) :
    (l.set c x).take (c + 1) = l.take c ++ [x] := by
  rw [List.set_eq_take_cons_drop x h, List.take_append_eq_append_take, List.take_take]
  have hlen : (l.take c).length = c := by
    simp [Nat.min_eq_left (Nat.le_of_lt h)]
  rw [hlen]
  have h1 : min (c + 1) c = c := by omega
  have h2 : c + 1 - c = 1 := by omega
  rw [h1, h2]
  simp

theorem segActions_split (slots : List (Option α)) (K c : Nat) (hK : K ≤ c) :
    segActions slots 0 c = segActions slots 0 K ++ segActions slots K c := by
  unfold segActions
  rw [List.drop_zero, List.drop_zero]
  conv_lhs => rw [← List.take_append_drop K (slots.take c)]
  rw [List.filterMap_append, List.take_take, Nat.min_eq_left hK]

theorem inv_init (n : Nat) : Inv (initState n) := by
  refine ⟨?_, ?_, ?_, ?_, ?_⟩ <;>
    simp [initState, MAKE_DESTRUCTOR_STACK, pendingTags, segActions]

/-- One successful operation preserves the run invariant. -/
theorem inv_step {st : RState} {op : Op} {st' : RState} (hinv : Inv st)
    (h : step st op = some st') : Inv st' := by
  obtain ⟨hlen, hcur, hfill, hnodup, hbound⟩ := hinv
  cases op with
  | push =>
    rw [step_push_eq] at h
    by_cases hc : st.stack.cursor < st.stack.capacity
    · rw [if_pos hc] at h
      cases h
      have hclen : st.stack.cursor < st.stack.slots.length := by omega
      have hpend : pendingTags
          { stack := { st.stack with
              slots := st.stack.slots.set st.stack.cursor (some st.nextTag),
              cursor := st.stack.cursor + 1 },
            nextTag := st.nextTag + 1, trace := st.trace } =
          pendingTags st ++ [st.nextTag] := by
        unfold pendingTags segActions
        simp only
        rw [List.drop_zero, List.drop_zero, take_set_succ _ _ _ hclen, List.filterMap_append]
        rfl
      have hfresh : st.nextTag ∉ pendingTags st ++ st.trace := by
        intro hmem
        exact absurd (hbound _ hmem) (lt_irrefl _)
      have hperm : List.Perm ((pendingTags st ++ [st.nextTag]) ++ st.trace)
          (st.nextTag :: (pendingTags st ++ st.trace)) := by
        have hassoc : (pendingTags st ++ [st.nextTag]) ++ st.trace =
            pendingTags st ++ st.nextTag :: st.trace := by
          simp
        rw [hassoc]
        exact List.perm_middle
      refine ⟨by simpa using hlen, by simpa using hc, ?_, ?_, ?_⟩
      · intro i hi
        simp only at hi ⊢
        by_cases hieq : i = st.stack.cursor
        · subst hieq
          exact ⟨st.nextTag, List.getElem?_set_eq_of_lt _ hclen⟩
        · obtain ⟨t, ht⟩ := hfill i (by omega)
          exact ⟨t, by rw [List.getElem?_set_ne (fun hx => hieq hx.symm)]; exact ht⟩
      · rw [hpend]
        exact hperm.symm.nodup (List.nodup_cons.mpr ⟨hfresh, hnodup⟩)
      · intro t ht
        rw [hpend] at ht
        have := hperm.mem_iff.mp ht
        simp only [List.mem_cons] at this
        rcases this with h1 | h2
        · simp only [h1]
          omega
        · have := hbound t h2
          simp only
          omega
    · rw [if_neg hc] at h
      cases h
  | unwind K =>
    rw [step_unwind_eq] at h
    cases hu : unwindLoop st.stack.slots K st.stack.cursor with
    | none => rw [hu] at h; cases h
    | some tr =>
      rw [hu] at h
      cases h
      have hK : K ≤ st.stack.cursor := unwindLoop_le hu
      have htr : tr = (segActions st.stack.slots K st.stack.cursor).reverse := by
        have h2 := unwindLoop_filled st.stack.slots K st.stack.cursor hK
          (fun i _ h2i => hfill i h2i)
        exact Option.some.inj (hu.symm.trans h2)
      have hpend : pendingTags
          { stack := { st.stack with cursor := K },
            nextTag := st.nextTag, trace := st.trace ++ tr } =
          segActions st.stack.slots 0 K := rfl
      have hsplit : pendingTags st =
          segActions st.stack.slots 0 K ++ segActions st.stack.slots K st.stack.cursor :=
        segActions_split st.stack.slots K st.stack.cursor hK
      have hperm : List.Perm
          (segActions st.stack.slots 0 K ++
            (st.trace ++ (segActions st.stack.slots K st.stack.cursor).reverse))
          ((segActions st.stack.slots 0 K ++ segActions st.stack.slots K st.stack.cursor) ++
            st.trace) := by
        have p1 : List.Perm
            (st.trace ++ (segActions st.stack.slots K st.stack.cursor).reverse)
            (segActions st.stack.slots K st.stack.cursor ++ st.trace) := by
          have p2 := List.Perm.append_left st.trace
            (List.reverse_perm (segActions st.stack.slots K st.stack.cursor))
          exact p2.trans List.perm_append_comm
        have p3 := List.Perm.append_left (segActions st.stack.slots 0 K) p1
        have heq : segActions st.stack.slots 0 K ++
            (segActions st.stack.slots K st.stack.cursor ++ st.trace) =
            segActions st.stack.slots 0 K ++ segActions st.stack.slots K st.stack.cursor ++
              st.trace := (List.append_assoc _ _ _).symm
        rw [heq] at p3
        exact p3
      refine ⟨hlen, by simp only; omega, ?_, ?_, ?_⟩
      · intro i hi
        simp only at hi ⊢
        exact hfill i (by omega)
      · rw [hpend]
        simp only
        rw [htr]
        rw [hsplit] at hnodup
        exact (hperm.symm.nodup hnodup)
      · intro t ht
        rw [hpend] at ht
        simp only at ht
        rw [htr] at ht
        have hmem := hperm.mem_iff.mp ht
        rw [← hsplit] at hmem
        simp only
        exact hbound t hmem

/-- The run invariant holds along every non-aborting run. -/
theorem run_inv (ops : List Op) : ∀ (st st' : RState),
    Inv st → run st ops = some st' → Inv st' := by
  induction ops with
  | nil =>
    intro st st' hinv h
    simp [run] at h
    subst h
    exact hinv
  | cons op ops ih =>
    intro st st' hinv h
    rw [run] at h
    cases hs : step st op with
    | none => rw [hs] at h; cases h
    | some st2 =>
      rw [hs] at h
      simp only [Option.some_bind] at h
      exact ih st2 st' (inv_step hinv hs) h

/-- The last action an unwind executes is the one stored at the marker slot
`K` — the slot at which the unwind leaves the cursor. -/
theorem unwindLoop_getLast {slots : List (Option α)} {K : Nat} :
    ∀ {c : Nat} {tr : List α}, unwindLoop slots K c = some tr → K < c →
      ∃ b, slots[K]? = some (some b) ∧ tr.getLast? = some b := by
  intro c
  induction c with
  | zero =>
    intro tr _ hK
    exact absurd hK (Nat.not_lt_zero K)
  | succ c ih =>
    intro tr h hKc
    have hK1 : K ≤ c + 1 := Nat.le_of_lt hKc
    have hne : ¬(c + 1 = K) := by omega
    simp only [unwindLoop, hK1, if_pos, hne, if_neg] at h
    cases hget : slots[c]? with
    | none =>
      rw [hget] at h
      cases h
    | some o =>
      cases o with
      | none =>
        rw [hget] at h
        cases h
      | some a =>
        rw [hget] at h
        cases hu : unwindLoop slots K c with
        | none =>
          rw [hu] at h
          cases h
        | some tr0 =>
          rw [hu] at h
          have htr : a :: tr0 = tr := Option.some.inj h
          by_cases hKc2 : K < c
          · obtain ⟨b, hb1, hb2⟩ := ih hu hKc2
            refine ⟨b, hb1, ?_⟩
            rw [← htr]
            cases tr0 with
            | nil => simp at hb2
            | cons x xs =>
              rw [List.getLast?_cons_cons]
              exact hb2
          · have hKeq : K = c := by omega
            subst hKeq
            rw [unwindLoop_self] at hu
            have htr0 : ([] : List α) = tr0 := Option.some.inj hu
            rw [← htr, ← htr0]
            exact ⟨a, hget, rfl⟩

/-- C10: slots vacated by an unwind are reused — a push right after an
unwind to marker `K` overwrites exactly slot `K`, the slot whose action the
unwind executed last — and across every non-aborting run no registration is
ever executed twice (the trace of distinct-tagged registrations has no
duplicate). -/
theorem c10_slot_reuse_and_no_rerun :
    (∀ (s : DStack α) (K : Nat) (s' : DStack α) (tr : List α) (a : α) (s'' : DStack α),
      END_SCOPE s K = some (s', tr) → K < s.cursor → PUSH_DESTRUCTOR s' a = some s'' →
      s''.slots = s'.slots.set K (some a) ∧ s''.cursor = K + 1 ∧
      tr.getLast? = s'.slots[K]?.bind id ∧ (s'.slots[K]?.bind id).isSome = true) ∧
    (∀ (n : Nat) (ops : List Op) (st' : RState),
      run (initState n) ops = some st' → st'.trace.Nodup) := by
  constructor
  · intro s K s' tr a s'' hend hK hpush
    cases hu : unwindLoop s.slots K s.cursor with
    | none =>
      rw [END_SCOPE, hu] at hend
      cases hend
    | some tr2 =>
      rw [END_SCOPE, hu] at hend
      have hp : ({ s with cursor := K }, tr2) = (s', tr) := Option.some.inj hend
      have hs' : ({ s with cursor := K } : DStack α) = s' := congrArg Prod.fst hp
      have htr2 : tr2 = tr := congrArg Prod.snd hp
      obtain ⟨b, hb1, hb2⟩ := unwindLoop_getLast hu hK
      have hslotK : s'.slots[K]? = some (some b) := by
        rw [← hs']
        exact hb1
      have hcursK : s'.cursor = K := by
        rw [← hs']
      rw [PUSH_DESTRUCTOR_eq] at hpush
      by_cases hc : s'.cursor < s'.capacity
      · rw [if_pos hc] at hpush
        have hs'' := (Option.some.inj hpush).symm
        refine ⟨?_, ?_, ?_, ?_⟩
        · rw [hs'', hcursK]
        · rw [hs'']
          simp only
          rw [hcursK]
        · rw [hslotK, ← htr2, hb2]
          rfl
        · rw [hslotK]
          rfl
      · rw [if_neg hc] at hpush
        cases hpush
  · intro n ops st' h
    obtain ⟨_, _, _, hnodup, _⟩ := run_inv ops (initState n) st' (inv_init n) h
    exact hnodup.of_append_right

/-- Witness for C10: on a capacity-1 frame, unwinding the single pushed
action and pushing again overwrites slot 0; a run pushing twice with two
full unwinds executes each registration exactly once. -/
theorem c10_witness :
    ((⟨1, [some 9], 1⟩ : DStack Nat).slots = [some 5].set 0 (some 9) ∧
      (⟨1, [some 9], 1⟩ : DStack Nat).cursor = 0 + 1 ∧
      ([5] : List Nat).getLast? = ((⟨1, [some 5], 0⟩ : DStack Nat).slots[0]?).bind id ∧
      (((⟨1, [some 5], 0⟩ : DStack Nat).slots[0]?).bind id).isSome = true) ∧
    ([0, 1] : List Nat).Nodup :=
  ⟨(c10_slot_reuse_and_no_rerun (α := Nat)).1 ⟨1, [some 5], 1⟩ 0 ⟨1, [some 5], 0⟩ [5] 9
      ⟨1, [some 9], 1⟩ (by decide) (by decide) (by decide),
    (c10_slot_reuse_and_no_rerun (α := Nat)).2 1 [Op.push, Op.unwind 0, Op.push, Op.unwind 0]
      ⟨⟨1, [some 1], 0⟩, 2, [0, 1]⟩ (by decide)⟩
